import Mathlib

set_option autoImplicit false

namespace CargoAtcoder

/-!
Shallow embedding of the session transport and submission-tracking core of
cargo-atcoder, translated from `src/atcoder.rs`, `src/http.rs` and the
`watch_submission_status` function of `src/main.rs`.

Strings are modelled as `List Char`.  Machine integers (`usize`, submission
ids, HTTP status codes) are modelled as `Nat`; timestamps as `Int` seconds
(chrono `num_seconds` on second-granularity dates is exact subtraction).
-/

/-! ## Judge status model (`src/atcoder.rs`, `StatusCode`, `ResultCode`) -/

inductive ResultCode where
  | Accepted
  | WrongAnswer
  | TimeLimitExceeded
  | MemoryLimitExceeded
  | OutputLimitExceeded
  | RuntimeError
  | CompileError
  | InternalError
  | Unknown (s : List Char)
  deriving DecidableEq, Repr

inductive WaitingCode where
  | WaitingForJudge
  | WaitingForRejudge
  deriving DecidableEq, Repr

inductive StatusCode where
  | Waiting (w : WaitingCode)
  | Progress (cur total : Nat) (code : Option ResultCode)
  | Done (code : ResultCode)
  deriving DecidableEq, Repr

/-- `StatusCode::done` from `src/atcoder.rs`. -/
def StatusCode.done : StatusCode → Bool
  | .Done _ => true
  | _ => false

/-- Value of a digit string, as `usize::from_str` computes it (the Lean model
uses `Nat`, so the overflow panic of `parse().unwrap()` does not arise). -/
def digitsVal (l : List Char) : Nat :=
  l.foldl (fun a c => a * 10 + (c.toNat - 48)) 0

/-- Unicode `White_Space`, the class used by Rust `str::trim`. -/
def isRustWhitespace (c : Char) : Bool :=
  c.toNat = 0x09 || c.toNat = 0x0A || c.toNat = 0x0B || c.toNat = 0x0C ||
  c.toNat = 0x0D || c.toNat = 0x20 || c.toNat = 0x85 || c.toNat = 0xA0 ||
  c.toNat = 0x1680 || (0x2000 ≤ c.toNat && c.toNat ≤ 0x200A) ||
  c.toNat = 0x2028 || c.toNat = 0x2029 || c.toNat = 0x202F ||
  c.toNat = 0x205F || c.toNat = 0x3000

/-- Rust `str::trim`. -/
def trimWs (l : List Char) : List Char :=
  ((l.dropWhile isRustWhitespace).reverse.dropWhile isRustWhitespace).reverse

def dropSpaces (l : List Char) : List Char :=
  l.dropWhile (fun c => c == ' ')

/-- Matching of the regex `^(\d+) */ *(\d+) *(.*)$` from `StatusCode::from_str`,
returning the numeric values of groups 1 and 2 together with the trimmed
group 3 (`caps[3].trim()`).  `\d` is modelled as ASCII digits (every status
token the spec and the claims exercise is ASCII); all parts of the pattern are
greedy and `.` does not match a newline, so the match fails whenever the text
after the fraction contains `'\n'`. -/
def fractionSplit (s : List Char) : Option (Nat × Nat × List Char) :=
  let d1 := s.takeWhile Char.isDigit
  if d1 = [] then none
  else
    match dropSpaces (s.dropWhile Char.isDigit) with
    | [] => none
    | c2 :: s3 =>
      if c2 = '/' then
        let s4 := dropSpaces s3
        let d2 := s4.takeWhile Char.isDigit
        if d2 = [] then none
        else
          let cap3 := dropSpaces (s4.dropWhile Char.isDigit)
          if cap3.contains '\n' then none
          else some (digitsVal d1, digitsVal d2, trimWs cap3)
      else none

/-- The final `Done` mapping of `StatusCode::from_str`. -/
def resultCodeOf (s : List Char) : ResultCode :=
  if s = "CE".data then .CompileError
  else if s = "MLE".data then .MemoryLimitExceeded
  else if s = "TLE".data then .TimeLimitExceeded
  else if s = "RE".data then .RuntimeError
  else if s = "OLE".data then .OutputLimitExceeded
  else if s = "IE".data then .InternalError
  else if s = "WA".data then .WrongAnswer
  else if s = "AC".data then .Accepted
  else .Unknown s

/-- Outcome of `StatusCode::from_str`: a returned `Some` value, a returned
`None`, or a `panic!` (the `Invalid result status code` branch). -/
inductive ParseOutcome where
  | ok (c : StatusCode)
  | noneRes
  | panicked
  deriving DecidableEq, Repr

def ParseOutcome.isNone : ParseOutcome → Bool
  | .noneRes => true
  | _ => false

/-- `StatusCode::from_str`, fuelled.  The Rust function recurses on the
trailing text of the fraction pattern, which `fractionSplit_length` shows is
strictly shorter than the input, so with `fuel ≥ s.length` (as in `fromStr`)
the zero-fuel branch is unreachable and the fuelled recursion coincides with
the source's unbounded recursion. -/
def fromStrAux : Nat → List Char → ParseOutcome
  | fuel, s =>
    if s = "WJ".data then .ok (.Waiting .WaitingForJudge)
    else if s = "WR".data then .ok (.Waiting .WaitingForRejudge)
    else
      match fractionSplit s with
      | some (cur, total, rest) =>
        if rest = [] then .ok (.Progress cur total none)
        else
          match fuel with
          | 0 => .panicked
          | fuel' + 1 =>
            match fromStrAux fuel' rest with
            | .ok (.Done code) => .ok (.Progress cur total (some code))
            | .ok _ => .panicked
            | .noneRes => .noneRes
            | .panicked => .panicked
      | none => .ok (.Done (resultCodeOf s))

/-- `StatusCode::from_str` from `src/atcoder.rs`. -/
def fromStr (s : List Char) : ParseOutcome :=
  fromStrAux s.length s

/-!
## Submission tracker (`src/main.rs`, `watch_submission_status`)

The update task's per-submission display state: the `BTreeMap` maps a
submission id to its progress bar, of which the model keeps the live flag
`pb.1`; `finished` is a ghost log of the `finish_with_message` calls (one
entry per finalize-rendering event, in order).  The `BTreeMap` iteration
order only affects the tick/redraw loop, which issues no state change, so
the map is modelled as an association list.
-/

/-- `SubmissionResult` from `src/atcoder.rs`.  `date` is in seconds
(`chrono` timestamps at second granularity). -/
structure SubmissionResult where
  id : Nat
  date : Int
  problem_name : List Char
  user : List Char
  language : List Char
  score : Int
  code_length : List Char
  status : StatusCode
  run_time : Option (List Char)
  memory : Option (List Char)
  deriving DecidableEq, Repr

structure TrackState where
  dat : List (Nat × Bool)
  finished : List Nat
  deriving DecidableEq, Repr

def emptyTrack : TrackState := ⟨[], []⟩

def lookupDat : List (Nat × Bool) → Nat → Option Bool
  | [], _ => none
  | (k, v) :: rest, i => if k = i then some v else lookupDat rest i

def setDat : List (Nat × Bool) → Nat → Bool → List (Nat × Bool)
  | [], _, _ => []
  | (k, v) :: rest, i, b => if k = i then (k, b) :: rest else (k, v) :: setDat rest i b

/-- One iteration of the `for result in results` fold of the update task.
`dat.entry(id).or_insert_with(..)` creates the indicator live; `Waiting` and
`Progress` clear the cycle's `done` flag and only restyle the live bar;
`Done` finalizes (`finish_with_message`, recorded in `finished`) exactly when
the bar is still live, then clears the live flag. -/
def foldStep (acc : TrackState × Bool) (r : SubmissionResult) : TrackState × Bool :=
  let st := acc.1
  let done := acc.2
  let st :=
    match lookupDat st.dat r.id with
    | some _ => st
    | none => ⟨st.dat ++ [(r.id, true)], st.finished⟩
  let live := (lookupDat st.dat r.id).getD true
  match r.status with
  | .Waiting _ => (st, false)
  | .Progress _ _ _ => (st, false)
  | .Done _ =>
    if live then
      (⟨setDat st.dat r.id false, st.finished ++ [r.id]⟩, done)
    else
      (st, done)

/-- The recent-only filter of one poll cycle:
`(cur_time - r.date).num_seconds() <= 10 || !r.status.done()`. -/
def inScope (curTime : Int) (r : SubmissionResult) : Bool :=
  curTime - r.date ≤ 10 || !r.status.done

/-- Stable ascending insertion by `date`: a new element goes after every
element whose key is `≤` its own, which is the tie behaviour of the stable
`sort_by_key`. -/
def insertByDate (x : SubmissionResult) : List SubmissionResult → List SubmissionResult
  | [] => [x]
  | y :: ys => if y.date ≤ x.date then y :: insertByDate x ys else x :: y :: ys

def sortByDate (l : List SubmissionResult) : List SubmissionResult :=
  l.foldl (fun acc x => insertByDate x acc) []

/-- One cycle of the polling loop body (`src/main.rs:891-996`): filter in
recent-only mode, sort by submission timestamp, record
`last_id = results.iter().last().map(|r| r.id)`, and fold every submission
into the working set, computing the cycle's `done` flag (initially `true`,
cleared by any non-terminal submission). -/
def pollCycle (recentOnly : Bool) (curTime : Int) (st : TrackState)
    (results : List SubmissionResult) : TrackState × Option Nat × Bool :=
  let results := if !recentOnly then results else results.filter (inScope curTime)
  let results := sortByDate results
  let lastId := results.getLast?.map SubmissionResult.id
  let stDone := results.foldl foldStep (st, true)
  (stDone.1, lastId, stDone.2)

/-- The polling loop, driven by the finite list of poll snapshots the judge
would serve.  Returns the final state, the final `last_id`, whether the loop
terminated via the `done && recent_only` break, and how many poll cycles it
consumed. -/
def runPolls (recentOnly : Bool) (curTime : Int) :
    TrackState → Option Nat → List (List SubmissionResult) →
    TrackState × Option Nat × Bool × Nat
  | st, lastId, [] => (st, lastId, false, 0)
  | st, _, poll :: rest =>
    let step := pollCycle recentOnly curTime st poll
    if step.2.2 && recentOnly then (step.1, step.2.1, true, 1)
    else
      let next := runPolls recentOnly curTime step.1 step.2.1 rest
      (next.1, next.2.1, next.2.2.1, next.2.2.2 + 1)

/-- Whether a poll cycle stops the recent-only loop: every in-scope
submission of the snapshot is `Done`. -/
def cycleDone (curTime : Int) (poll : List SubmissionResult) : Bool :=
  (poll.filter (inScope curTime)).all fun r => r.status.done

/--
Outcome of the update task (`src/main.rs:873-1020`) on a list of
`submission_status` poll outcomes: either it finished — recording the final
value of the shared atomic `complete` flag together with the task's returned
`Result` — or the supplied poll outcomes were exhausted with the loop still
running.  The flag is stored only at main.rs:999 (the `done && recent_only`
break) and main.rs:1016 (after the loop); an `Err` from `submission_status`
leaves the task through the `?` at main.rs:891 without reaching either store.
-/
instance exceptDecEq {ε α : Type} [DecidableEq ε] [DecidableEq α] :
    DecidableEq (Except ε α) := fun x y =>
  match x, y with
  | .ok a, .ok b => decidable_of_iff (a = b) (by simp)
  | .error a, .error b => decidable_of_iff (a = b) (by simp)
  | .ok _, .error _ => isFalse fun h => Except.noConfusion h
  | .error _, .ok _ => isFalse fun h => Except.noConfusion h

inductive TaskEnd (ε : Type) where
  | finished (complete : Bool) (res : Except ε (Option Nat))
  | ranOut
  deriving DecidableEq

def updateTask (ε : Type) (recentOnly : Bool) (curTime : Int) :
    TrackState → Option Nat → List (Except ε (List SubmissionResult)) → TaskEnd ε
  | _, _, [] => .ranOut
  | _, _, (.error e) :: _ => .finished false (.error e)
  | st, _, (.ok results) :: rest =>
    let step := pollCycle recentOnly curTime st results
    if step.2.2 && recentOnly then .finished true (.ok step.2.1)
    else updateTask ε recentOnly curTime step.1 step.2.1 rest

/-- The join barrier of `watch_submission_status`
(`Ok(join!(join_fut, update_fut).1??)`): the `join_fut` side loops
`while !complete.load(..)`, so the overall call returns only when the
completion flag was set; `some r` is the value the caller receives and
`none` means the call never returns. -/
def watchReturn (ε : Type) (t : TaskEnd ε) : Option (Except ε (Option Nat)) :=
  match t with
  | .finished true res => some res
  | .finished false _ => none
  | .ranOut => none

/-!
## HTTP transport (`src/atcoder.rs`, `AtCoder::http_req` and
`src/http.rs`, `Client::req`)

The network is a pure `server` function from method and URL to a response.
URLs are reduced to host and path; `urlJoin` models `Url::join` on the two
shapes the redirect claims exercise (absolute and host-relative locations).
The cookie jar records every absorbed `Set-Cookie` header with the URL it
was stored for; `store_response_cookies` only ever adds/overwrites entries,
which the claims only observe through membership, so absorption is appending.
-/

structure UrlT where
  host : List Char
  path : List Char
  deriving DecidableEq, Repr

inductive LocationT where
  | absolute (host path : List Char)
  | relative (path : List Char)
  deriving DecidableEq, Repr

def urlJoin (u : UrlT) (l : LocationT) : UrlT :=
  match l with
  | .absolute h p => ⟨h, p⟩
  | .relative p => ⟨u.host, p⟩

structure HttpResponse where
  syntheticError : Option (List (List Char))
  status : Nat
  statusText : List Char
  resUrl : List Char
  setCookies : List (List Char)
  location : Option LocationT
  body : List Char
  deriving DecidableEq, Repr

/-- `ureq` `Response::error()`: 4xx or 5xx. -/
def resIsError (res : HttpResponse) : Bool :=
  400 ≤ res.status && res.status ≤ 599

/-- `(300..=399).contains(&res.status())`. -/
def resIsRedirect (res : HttpResponse) : Bool :=
  300 ≤ res.status && res.status ≤ 399

abbrev Jar : Type := List (List Char × UrlT)

/-- `store_response_cookies(cookies, &url)`. -/
def absorb (jar : Jar) (cookies : List (List Char)) (url : UrlT) : Jar :=
  jar ++ cookies.map fun c => (c, url)

inductive ReqError where
  | transport (chain : List (List Char))
  | statusError (url : List Char) (status : Nat) (statusText : List Char)
  | tooManyRedirects (url : List Char)
  | missingLocation (url : List Char) (status : Nat) (statusText : List Char)
  | crossHost
  deriving DecidableEq, Repr

structure ReqOutcome where
  jar : Jar
  log : List (List Char × UrlT)
  result : Except ReqError (List Char)
  deriving DecidableEq

/-- The manual redirect loop of `AtCoder::http_req` (`src/atcoder.rs:841-914`).
`rest` is `rest_redirects` (initially `REDIRECTS = 5`); `log` is a ghost
record of the requests issued.  The loop checks, in source order: synthetic
transport error, `res.error()` (before any cookie processing), `Set-Cookie`
absorption, the non-3xx return, budget exhaustion, `Location` presence, then
joins the location, downgrades the method to GET, and enforces the
`atcoder.jp` host before the next hop. -/
def httpReqGo (server : List Char → UrlT → HttpResponse) (method : List Char)
    (url : UrlT) (jar : Jar) (log : List (List Char × UrlT)) (rest : Nat) :
    ReqOutcome :=
  let res := server method url
  let log := log ++ [(method, url)]
  match res.syntheticError with
  | some chain => ⟨jar, log, .error (.transport chain)⟩
  | none =>
    if resIsError res then
      ⟨jar, log, .error (.statusError res.resUrl res.status res.statusText)⟩
    else
      let jar := absorb jar res.setCookies url
      if !resIsRedirect res then ⟨jar, log, .ok res.body⟩
      else
        match rest with
        | 0 => ⟨jar, log, .error (.tooManyRedirects res.resUrl)⟩
        | rest' + 1 =>
          match res.location with
          | none => ⟨jar, log, .error (.missingLocation res.resUrl res.status res.statusText)⟩
          | some loc =>
            let url' := urlJoin url loc
            if url'.host = "atcoder.jp".data then
              httpReqGo server "GET".data url' jar log rest'
            else ⟨jar, log, .error .crossHost⟩

/-- `AtCoder::http_req` with its initial redirect budget. -/
def httpReq (server : List Char → UrlT → HttpResponse) (method : List Char)
    (url : UrlT) : ReqOutcome :=
  httpReqGo server method url [] [] 5

/-- The redirect loop of `Client::req` (`src/http.rs:117-188`).  It is the
same loop as `AtCoder::http_req` except for one detail of the source: the
joined redirect target is bound with `let url = url.join(location)?;`, a new
binding that shadows the `url` parameter inside the loop body only, so the
next iteration's request is still issued against the original `url`. -/
def clientReqGo (server : List Char → UrlT → HttpResponse) (origUrl : UrlT)
    (method : List Char) (jar : Jar) (log : List (List Char × UrlT)) (rest : Nat) :
    ReqOutcome :=
  let res := server method origUrl
  let log := log ++ [(method, origUrl)]
  match res.syntheticError with
  | some chain => ⟨jar, log, .error (.transport chain)⟩
  | none =>
    if resIsError res then
      ⟨jar, log, .error (.statusError res.resUrl res.status res.statusText)⟩
    else
      let jar := absorb jar res.setCookies origUrl
      if !resIsRedirect res then ⟨jar, log, .ok res.body⟩
      else
        match rest with
        | 0 => ⟨jar, log, .error (.tooManyRedirects res.resUrl)⟩
        | rest' + 1 =>
          match res.location with
          | none => ⟨jar, log, .error (.missingLocation res.resUrl res.status res.statusText)⟩
          | some loc =>
            let url' := urlJoin origUrl loc
            if url'.host = "atcoder.jp".data then
              clientReqGo server origUrl "GET".data jar log rest'
            else ⟨jar, log, .error .crossHost⟩

/-- `Client::req` with its initial redirect budget (`REDIRECTS = 5`). -/
def clientReq (server : List Char → UrlT → HttpResponse) (method : List Char)
    (url : UrlT) : ReqOutcome :=
  clientReqGo server url method [] [] 5

/-!
## Concrete fixtures used by witnesses and counterexamples
-/

/-- Two recent submissions (dates 95 and 96, tracking start 100) still
waiting for the judge. -/
def sampleWaitingPoll : List SubmissionResult :=
  [⟨1, 95, [], [], [], 0, [], .Waiting .WaitingForJudge, none, none⟩,
   ⟨2, 96, [], [], [], 0, [], .Waiting .WaitingForJudge, none, none⟩]

/-- The same two submissions, both accepted. -/
def sampleDonePoll : List SubmissionResult :=
  [⟨1, 95, [], [], [], 0, [], .Done .Accepted, none, none⟩,
   ⟨2, 96, [], [], [], 0, [], .Done .Accepted, none, none⟩]

/-- A server answering every request with 404 and a `Set-Cookie` header. -/
def notFoundCookieServer (_ : List Char) (_ : UrlT) : HttpResponse :=
  ⟨none, 404, "Not Found".data, "https://atcoder.jp/x".data,
   ["sess=1".data], none, []⟩

/-- A server answering every request with 200 and a `Set-Cookie` header. -/
def okCookieServer (_ : List Char) (_ : UrlT) : HttpResponse :=
  ⟨none, 200, "OK".data, "https://atcoder.jp/ok".data,
   ["sess=2".data], none, "body".data⟩

/-- A server answering every request with a same-host 302 whose `Location`
points at a foreign host. -/
def crossHostServer (_ : List Char) (_ : UrlT) : HttpResponse :=
  ⟨none, 302, "Found".data, "https://atcoder.jp/go".data, [],
   some (.absolute "evil.example".data "/".data), []⟩

def redirectTo (p : List Char) (u : List Char) : HttpResponse :=
  ⟨none, 302, "Found".data, u, [], some (.relative p), []⟩

/-- Five same-host redirects `/r0 → … → /r5`, then a 200 at `/r5`. -/
def chain5Server (_ : List Char) (u : UrlT) : HttpResponse :=
  if u.path = "/r0".data then redirectTo "/r1".data "u0".data
  else if u.path = "/r1".data then redirectTo "/r2".data "u1".data
  else if u.path = "/r2".data then redirectTo "/r3".data "u2".data
  else if u.path = "/r3".data then redirectTo "/r4".data "u3".data
  else if u.path = "/r4".data then redirectTo "/r5".data "u4".data
  else ⟨none, 200, "OK".data, "u5".data, [], none, "final".data⟩

/-- Six same-host redirects `/r0 → … → /r6`, then a 200 at `/r6`. -/
def chain6Server (_ : List Char) (u : UrlT) : HttpResponse :=
  if u.path = "/r0".data then redirectTo "/r1".data "u0".data
  else if u.path = "/r1".data then redirectTo "/r2".data "u1".data
  else if u.path = "/r2".data then redirectTo "/r3".data "u2".data
  else if u.path = "/r3".data then redirectTo "/r4".data "u3".data
  else if u.path = "/r4".data then redirectTo "/r5".data "u4".data
  else if u.path = "/r5".data then redirectTo "/r6".data "u5".data
  else ⟨none, 200, "OK".data, "u6".data, [], none, "final".data⟩

/-- A six-hop chain whose sixth redirect response points at a foreign host:
`/r0 → … → /r5` same-host, and the response at `/r5` is a 302 to
`evil.example`. -/
def chainCrossAtEndServer (_ : List Char) (u : UrlT) : HttpResponse :=
  if u.path = "/r0".data then redirectTo "/r1".data "u0".data
  else if u.path = "/r1".data then redirectTo "/r2".data "u1".data
  else if u.path = "/r2".data then redirectTo "/r3".data "u2".data
  else if u.path = "/r3".data then redirectTo "/r4".data "u3".data
  else if u.path = "/r4".data then redirectTo "/r5".data "u4".data
  else ⟨none, 302, "Found".data, "u5".data, [],
    some (.absolute "evil.example".data "/".data), []⟩

/-- One same-host redirect `/a → /b`, then a 200 at `/b`. -/
def oneHopServer (_ : List Char) (u : UrlT) : HttpResponse :=
  if u.path = "/a".data then redirectTo "/b".data "ua".data
  else ⟨none, 200, "OK".data, "ub".data, [], none, "done".data⟩

theorem length_dropWhile_le {α : Type} (p : α → Bool) (l : List α) :
    (l.dropWhile p).length ≤ l.length := by
  induction l with
  | nil => simp [List.dropWhile]
  | cons a l ih =>
    by_cases h : p a
    · simp only [List.dropWhile, h, List.length_cons]
      omega
    · simp [List.dropWhile, h]

theorem length_dropWhile_lt {α : Type} (p : α → Bool) (l : List α)
    (h : l.takeWhile p ≠ []) : (l.dropWhile p).length < l.length := by
  cases l with
  | nil => simp [List.takeWhile] at h
  | cons a l =>
    by_cases hp : p a
    · have hdw : List.dropWhile p (a :: l) = List.dropWhile p l := by
        simp [List.dropWhile, hp]
      rw [hdw, List.length_cons]
      exact Nat.lt_succ_of_le (length_dropWhile_le p l)
    · simp [List.takeWhile, hp] at h

theorem length_trimWs_le (l : List Char) : (trimWs l).length ≤ l.length := by
  unfold trimWs
  have h1 := length_dropWhile_le isRustWhitespace l
  have h2 := length_dropWhile_le isRustWhitespace (l.dropWhile isRustWhitespace).reverse
  simp only [List.length_reverse] at *
  omega

/-- The trailing text returned by the fraction matcher is strictly shorter
than the input (the input additionally contains the first digit group and the
slash). -/
theorem fractionSplit_length (s : List Char) (c t : Nat) (r : List Char)
    (h : fractionSplit s = some (c, t, r)) : r.length < s.length := by
  unfold fractionSplit at h
  simp only at h
  split at h
  · exact absurd h (by simp)
  next h1 =>
  split at h
  · exact absurd h (by simp)
  next c2 s3 hm =>
  split at h
  case isFalse => exact absurd h (by simp)
  next hc2 =>
  split at h
  · exact absurd h (by simp)
  next h2 =>
  split at h
  · exact absurd h (by simp)
  next h3 =>
  have hr : trimWs (dropSpaces ((dropSpaces s3).dropWhile Char.isDigit)) = r := by
    have := Option.some.inj h
    exact congrArg (fun p => p.2.2) this
  have l1 := length_trimWs_le (dropSpaces ((dropSpaces s3).dropWhile Char.isDigit))
  have l2 := length_dropWhile_le (fun c => c == ' ')
    ((dropSpaces s3).dropWhile Char.isDigit)
  have l3 := length_dropWhile_le Char.isDigit (dropSpaces s3)
  have l4 := length_dropWhile_le (fun c => c == ' ') s3
  have l5 : s3.length < (dropSpaces (s.dropWhile Char.isDigit)).length := by
    rw [hm]; simp
  have l6 := length_dropWhile_le (fun c => c == ' ') (s.dropWhile Char.isDigit)
  have l7 := length_dropWhile_lt Char.isDigit s h1
  rw [← hr]
  unfold dropSpaces at *
  omega

theorem fromStrAux_progress (fuel : Nat) (s : List Char) (c t : Nat) (o : Option ResultCode)
    (h : fromStrAux fuel s = .ok (.Progress c t o)) :
    ∃ r, fractionSplit s = some (c, t, r) := by
  unfold fromStrAux at h
  split at h
  · exact absurd h (by simp)
  split at h
  · exact absurd h (by simp)
  split at h
  next cur total rest hm =>
    split at h
    · simp only [ParseOutcome.ok.injEq, StatusCode.Progress.injEq] at h
      obtain ⟨hc, ht, -⟩ := h
      exact ⟨rest, by rw [hm, hc, ht]⟩
    · split at h
      · exact absurd h (by simp)
      · split at h
        next code hcode =>
          simp only [ParseOutcome.ok.injEq, StatusCode.Progress.injEq] at h
          obtain ⟨hc, ht, -⟩ := h
          exact ⟨rest, by rw [hm, hc, ht]⟩
        all_goals exact absurd h (by simp)
  next hm => exact absurd h (by simp)

theorem fromStrAux_ne_none : ∀ (fuel : Nat) (s : List Char), s.length ≤ fuel →
    (fromStrAux fuel s).isNone = false := by
  intro fuel
  induction fuel with
  | zero =>
    intro s hs
    have hnil : s = [] := List.length_eq_zero.mp (Nat.le_zero.mp hs)
    subst hnil
    decide
  | succ n ih =>
    intro s hs
    unfold fromStrAux
    split
    · rfl
    split
    · rfl
    split
    next cur total rest hm =>
      split
      · rfl
      · have hlen : rest.length ≤ n := by
          have := fractionSplit_length s cur total rest hm
          omega
        have hrec := ih rest hlen
        show (match fromStrAux n rest with
          | ParseOutcome.ok (StatusCode.Done code) =>
            ParseOutcome.ok (StatusCode.Progress cur total (some code))
          | ParseOutcome.ok _ => ParseOutcome.panicked
          | ParseOutcome.noneRes => ParseOutcome.noneRes
          | ParseOutcome.panicked => ParseOutcome.panicked).isNone = false
        cases hcase : fromStrAux n rest with
        | ok c0 => cases c0 <;> rfl
        | noneRes => rw [hcase] at hrec; simp [ParseOutcome.isNone] at hrec
        | panicked => rfl
    next hm => rfl

/-- C7: the status parser satisfies the five example equations of the spec:
parse "AC" is Done Accepted, parse "WJ" is Waiting AwaitingJudge,
parse "6/9 TLE" is Progress 6 9 (Some TimeLimitExceeded), parse "3/3" is
Progress 3 3 None, and parse "ZZ" is Done (Unknown "ZZ"). -/
theorem c7_parse_examples :
    fromStr "AC".data = .ok (.Done .Accepted) ∧
    fromStr "WJ".data = .ok (.Waiting .WaitingForJudge) ∧
    fromStr "6/9 TLE".data = .ok (.Progress 6 9 (some .TimeLimitExceeded)) ∧
    fromStr "3/3".data = .ok (.Progress 3 3 none) ∧
    fromStr "ZZ".data = .ok (.Done (.Unknown "ZZ".data)) :=
  ⟨by decide, by decide, by decide, by decide, by decide⟩

/-- C2 counterexample: the input "9/6" parses to Progress(9, 6, None)
although 9 > 6, so `completed ≤ total` does not hold for every `Progress`
parse. -/
theorem c2_counterexample :
    fromStr "9/6".data = .ok (.Progress 9 6 none) ∧ 6 < 9 :=
  ⟨by decide, by decide⟩

/-- C2 (amended): whenever parse returns Progress(c, t, _), the values c and
t are exactly the numeric values of the two digit groups of the fraction
pattern, taken verbatim from the input; the parser performs no
`completed ≤ total` check, so the invariant holds exactly when the input's
first numeral is at most its second. -/
theorem c2_amended_progress_verbatim (s : List Char) (c t : Nat)
    (o : Option ResultCode) (h : fromStr s = .ok (.Progress c t o)) :
    ∃ r, fractionSplit s = some (c, t, r) :=
  fromStrAux_progress s.length s c t o h

theorem c2_amended_progress_verbatim_witness :
    ∃ r, fractionSplit "6/9 TLE".data = some (6, 9, r) :=
  c2_amended_progress_verbatim "6/9 TLE".data 6 9 (some .TimeLimitExceeded) (by decide)

theorem fromStrAux_nonfraction (fuel : Nat) (s : List Char)
    (h : fractionSplit s = none) :
    fromStrAux fuel s = .ok (.Waiting .WaitingForJudge) ∨
    fromStrAux fuel s = .ok (.Waiting .WaitingForRejudge) ∨
    fromStrAux fuel s = .ok (.Done (resultCodeOf s)) := by
  unfold fromStrAux
  split
  · left; rfl
  · split
    · right; left; rfl
    · rw [h]
      right; right; rfl

/-- C9: `StatusCode::from_str` never returns `None`: every string that does
not match the fraction pattern is parsed as Waiting or as a Done code (a
known code or `Unknown token`, per `resultCodeOf`), and a fraction-shaped
input whose trailing text parses to a Waiting or Progress value (such as
"1/2 WJ" or "1/2 3/4") makes the function panic instead of returning, so
the `None` branch of the public interface is unreachable. -/
theorem c9_none_unreachable :
    (∀ s : List Char, (fromStr s).isNone = false) ∧
    (∀ s : List Char, fractionSplit s = none →
      fromStr s = .ok (.Waiting .WaitingForJudge) ∨
      fromStr s = .ok (.Waiting .WaitingForRejudge) ∨
      fromStr s = .ok (.Done (resultCodeOf s))) ∧
    fromStr "1/2 WJ".data = .panicked ∧
    fromStr "1/2 3/4".data = .panicked :=
  ⟨fun s => fromStrAux_ne_none s.length s le_rfl,
   fun s h => fromStrAux_nonfraction s.length s h,
   by decide, by decide⟩

theorem c9_none_unreachable_witness :
    fromStr "ZZ".data = .ok (.Waiting .WaitingForJudge) ∨
    fromStr "ZZ".data = .ok (.Waiting .WaitingForRejudge) ∨
    fromStr "ZZ".data = .ok (.Done (resultCodeOf "ZZ".data)) :=
  c9_none_unreachable.2.1 "ZZ".data (by decide)

theorem lookupDat_append_absent (dat : List (Nat × Bool)) (i : Nat) (b : Bool)
    (h : lookupDat dat i = none) : lookupDat (dat ++ [(i, b)]) i = some b := by
  induction dat with
  | nil => simp [lookupDat]
  | cons kv rest ih =>
    obtain ⟨k, v⟩ := kv
    by_cases hk : k = i
    · simp [lookupDat, hk] at h
    · rw [List.cons_append]
      simp only [lookupDat, hk, if_false] at h ⊢
      exact ih h

theorem lookupDat_setDat_self (dat : List (Nat × Bool)) (i : Nat) (v b : Bool)
    (h : lookupDat dat i = some v) : lookupDat (setDat dat i b) i = some b := by
  induction dat with
  | nil => simp [lookupDat] at h
  | cons kv rest ih =>
    obtain ⟨k, w⟩ := kv
    by_cases hk : k = i
    · simp [lookupDat, setDat, hk]
    · simp only [lookupDat, setDat, hk, if_false] at h ⊢
      exact ih h

theorem foldStep_done_finalized (st : TrackState) (b : Bool) (r : SubmissionResult)
    (hdone : r.status.done = true) (h : lookupDat st.dat r.id = some false) :
    foldStep (st, b) r = (st, b) := by
  cases hs : r.status with
  | Done c => simp [foldStep, h, hs]
  | Waiting w => rw [hs] at hdone; simp [StatusCode.done] at hdone
  | Progress a b c => rw [hs] at hdone; simp [StatusCode.done] at hdone

theorem foldStep_done_event (st : TrackState) (b : Bool) (r : SubmissionResult)
    (hdone : r.status.done = true) (h : lookupDat st.dat r.id ≠ some false) :
    ∃ dat', foldStep (st, b) r = (⟨dat', st.finished ++ [r.id]⟩, b) ∧
      lookupDat dat' r.id = some false := by
  cases hs : r.status with
  | Waiting w => rw [hs] at hdone; simp [StatusCode.done] at hdone
  | Progress a b c => rw [hs] at hdone; simp [StatusCode.done] at hdone
  | Done c =>
    cases hl : lookupDat st.dat r.id with
    | none =>
      refine ⟨setDat (st.dat ++ [(r.id, true)]) r.id false, ?_, ?_⟩
      · simp [foldStep, hl, hs, lookupDat_append_absent st.dat r.id true hl]
      · exact lookupDat_setDat_self _ _ true false
          (lookupDat_append_absent st.dat r.id true hl)
    | some v =>
      cases v with
      | false => exact absurd hl h
      | true =>
        refine ⟨setDat st.dat r.id false, ?_, ?_⟩
        · simp [foldStep, hl, hs]
        · exact lookupDat_setDat_self _ _ true false hl

/-- C8: folding the same submission id through the tracker's per-submission
fold step twice with a Done status triggers the finalize-rendering event
(finish_with_message) exactly once — the double fold appends exactly one
entry to the finalize log — and a record whose indicator is already
finalized (live flag false) is never re-finalized: the fold step is the
identity on it. -/
theorem c8_idempotent_finalize :
    (∀ (st : TrackState) (b b' : Bool) (r : SubmissionResult),
      r.status.done = true → lookupDat st.dat r.id ≠ some false →
      ((foldStep ((foldStep (st, b) r).1, b') r).1).finished
        = st.finished ++ [r.id]) ∧
    (∀ (st : TrackState) (b : Bool) (r : SubmissionResult),
      r.status.done = true → lookupDat st.dat r.id = some false →
      foldStep (st, b) r = (st, b)) := by
  constructor
  · intro st b b' r hdone h
    obtain ⟨dat', heq, hlk⟩ := foldStep_done_event st b r hdone h
    rw [heq]
    rw [foldStep_done_finalized ⟨dat', st.finished ++ [r.id]⟩ b' r hdone hlk]
  · intro st b r hdone h
    exact foldStep_done_finalized st b r hdone h

theorem c8_idempotent_finalize_witness :
    ((foldStep ((foldStep (emptyTrack, true)
        (⟨7, 0, [], [], [], 0, [], .Done .Accepted, none, none⟩ :
          SubmissionResult)).1, true)
      (⟨7, 0, [], [], [], 0, [], .Done .Accepted, none, none⟩ :
        SubmissionResult)).1).finished = [] ++ [7] ∧
    foldStep ((⟨[(7, false)], [7]⟩ : TrackState), true)
      (⟨7, 0, [], [], [], 0, [], .Done .Accepted, none, none⟩ :
        SubmissionResult) = (⟨[(7, false)], [7]⟩, true) :=
  ⟨c8_idempotent_finalize.1 emptyTrack true true _ (by decide) (by decide),
   c8_idempotent_finalize.2 ⟨[(7, false)], [7]⟩ true _ (by decide) (by decide)⟩

/-- C10: in recent-only mode, a poll cycle whose filtered submission list is
empty terminates the tracking loop on that same cycle with `last_id = None`:
the call returns no submission identifier. -/
theorem c10_empty_scope_returns_none (curTime : Int) (st : TrackState)
    (lastId : Option Nat) (p : List SubmissionResult)
    (polls : List (List SubmissionResult))
    (h : p.filter (inScope curTime) = []) :
    runPolls true curTime st lastId (p :: polls) = (st, none, true, 1) := by
  simp [runPolls, pollCycle, h, sortByDate]

theorem c10_empty_scope_returns_none_witness :
    runPolls true 100 emptyTrack none
      [[⟨3, 0, [], [], [], 0, [], .Done .Accepted, none, none⟩]]
      = (emptyTrack, none, true, 1) :=
  c10_empty_scope_returns_none 100 emptyTrack none
    [⟨3, 0, [], [], [], 0, [], .Done .Accepted, none, none⟩] [] (by decide)

theorem foldStep_flag (acc : TrackState × Bool) (r : SubmissionResult) :
    (foldStep acc r).2 = (acc.2 && r.status.done) := by
  obtain ⟨st, b⟩ := acc
  cases hs : r.status <;> simp [foldStep, hs, StatusCode.done, apply_ite]

theorem foldl_foldStep_flag (l : List SubmissionResult) (st : TrackState) (b : Bool) :
    (l.foldl foldStep (st, b)).2 = (b && l.all fun r => r.status.done) := by
  induction l generalizing st b with
  | nil => simp
  | cons r rest ih =>
    simp only [List.foldl_cons, List.all_cons]
    have h := foldStep_flag (st, b) r
    rcases hfs : foldStep (st, b) r with ⟨st', b'⟩
    rw [hfs] at h
    simp only at h
    rw [ih st' b', h, Bool.and_assoc]

theorem insertByDate_mem (x a : SubmissionResult) (l : List SubmissionResult) :
    a ∈ insertByDate x l ↔ a = x ∨ a ∈ l := by
  induction l with
  | nil => simp [insertByDate]
  | cons y ys ih =>
    by_cases h : y.date ≤ x.date
    · simp only [insertByDate, h, if_true, List.mem_cons, ih]
      tauto
    · simp only [insertByDate, h, if_false, List.mem_cons]

theorem insertByDate_pairwise (x : SubmissionResult) (l : List SubmissionResult)
    (h : l.Pairwise fun a b => a.date ≤ b.date) :
    (insertByDate x l).Pairwise fun a b => a.date ≤ b.date := by
  induction l with
  | nil => simp [insertByDate]
  | cons y ys ih =>
    rw [List.pairwise_cons] at h
    obtain ⟨hy, hys⟩ := h
    by_cases hle : y.date ≤ x.date
    · simp only [insertByDate, hle, if_true]
      rw [List.pairwise_cons]
      refine ⟨?_, ih hys⟩
      intro a ha
      rcases (insertByDate_mem x a ys).mp ha with rfl | ha
      · exact hle
      · exact hy a ha
    · simp only [insertByDate, hle, if_false]
      rw [List.pairwise_cons]
      refine ⟨?_, List.pairwise_cons.mpr ⟨hy, hys⟩⟩
      intro a ha
      rcases List.mem_cons.mp ha with rfl | ha
      · omega
      · have := hy a ha
        omega

theorem sortByDate_go_mem (l acc : List SubmissionResult) (a : SubmissionResult) :
    (a ∈ l.foldl (fun acc x => insertByDate x acc) acc) ↔ a ∈ acc ∨ a ∈ l := by
  induction l generalizing acc with
  | nil => simp
  | cons x xs ih =>
    simp only [List.foldl_cons]
    rw [ih, insertByDate_mem]
    simp only [List.mem_cons]
    tauto

theorem sortByDate_mem (l : List SubmissionResult) (a : SubmissionResult) :
    a ∈ sortByDate l ↔ a ∈ l := by
  unfold sortByDate
  rw [sortByDate_go_mem]
  simp

theorem sortByDate_go_pairwise (l : List SubmissionResult) :
    ∀ acc : List SubmissionResult, (acc.Pairwise fun a b => a.date ≤ b.date) →
    (l.foldl (fun acc x => insertByDate x acc) acc).Pairwise fun a b => a.date ≤ b.date := by
  induction l with
  | nil => intro acc h; simpa using h
  | cons x xs ih =>
    intro acc h
    simp only [List.foldl_cons]
    exact ih _ (insertByDate_pairwise x acc h)

theorem sortByDate_pairwise (l : List SubmissionResult) :
    (sortByDate l).Pairwise fun a b => a.date ≤ b.date :=
  sortByDate_go_pairwise l [] List.Pairwise.nil

theorem getLast?_mem {α : Type} (l : List α) (m : α) (h : l.getLast? = some m) :
    m ∈ l := by
  induction l with
  | nil => simp at h
  | cons x xs ih =>
    cases xs with
    | nil =>
      simp only [List.getLast?_singleton, Option.some.injEq] at h
      simp [h]
    | cons y ys =>
      rw [List.getLast?_cons_cons] at h
      exact List.mem_cons_of_mem x (ih h)

theorem pairwise_getLast_max : ∀ l : List SubmissionResult,
    (l.Pairwise fun a b => a.date ≤ b.date) → ∀ m : SubmissionResult,
    l.getLast? = some m → ∀ a ∈ l, a.date ≤ m.date := by
  intro l
  induction l with
  | nil => intro _ m hm; simp at hm
  | cons x xs ih =>
    intro h m hm a ha
    rw [List.pairwise_cons] at h
    obtain ⟨hx, hxs⟩ := h
    cases xs with
    | nil =>
      simp only [List.getLast?_singleton, Option.some.injEq] at hm
      subst hm
      simp only [List.mem_singleton] at ha
      subst ha
      exact le_refl _
    | cons y ys =>
      rw [List.getLast?_cons_cons] at hm
      rcases List.mem_cons.mp ha with rfl | ha
      · exact hx m (getLast?_mem _ m hm)
      · exact ih hxs m hm a ha

theorem sortByDate_getLast_max (l : List SubmissionResult) (hne : l ≠ []) :
    ∃ m, (sortByDate l).getLast? = some m ∧ m ∈ l ∧ ∀ a ∈ l, a.date ≤ m.date := by
  have hsne : sortByDate l ≠ [] := by
    intro hcontra
    cases hl : l with
    | nil => exact hne hl
    | cons x xs =>
      have hx : x ∈ sortByDate l :=
        (sortByDate_mem l x).mpr (by rw [hl]; exact List.mem_cons_self x xs)
      rw [hcontra] at hx
      simp at hx
  obtain ⟨m, hm⟩ := Option.isSome_iff_exists.mp (List.getLast?_isSome.mpr hsne)
  refine ⟨m, hm, (sortByDate_mem l m).mp (getLast?_mem _ m hm), ?_⟩
  intro a ha
  exact pairwise_getLast_max (sortByDate l) (sortByDate_pairwise l) m hm a
    ((sortByDate_mem l a).mpr ha)

theorem all_eq_of_mem_iff {α : Type} (l l' : List α) (hm : ∀ a, a ∈ l ↔ a ∈ l')
    (p : α → Bool) : l.all p = l'.all p := by
  cases h : l'.all p
  · rw [List.all_eq_false] at h ⊢
    obtain ⟨x, hx, hpx⟩ := h
    exact ⟨x, (hm x).mpr hx, hpx⟩
  · rw [List.all_eq_true] at h ⊢
    intro a ha
    exact h a ((hm a).mp ha)

theorem pollCycle_lastId (curTime : Int) (st : TrackState) (p : List SubmissionResult) :
    (pollCycle true curTime st p).2.1
      = (sortByDate (p.filter (inScope curTime))).getLast?.map SubmissionResult.id := by
  simp [pollCycle]

theorem pollCycle_flag (curTime : Int) (st : TrackState) (p : List SubmissionResult) :
    (pollCycle true curTime st p).2.2 = cycleDone curTime p := by
  simp only [pollCycle, Bool.not_true, Bool.false_eq_true, if_false]
  rw [foldl_foldStep_flag]
  simp only [Bool.true_and]
  unfold cycleDone
  exact all_eq_of_mem_iff _ _ (fun a => sortByDate_mem _ a) _

theorem runPolls_cons_done (curTime : Int) (st : TrackState) (last : Option Nat)
    (p : List SubmissionResult) (polls : List (List SubmissionResult))
    (h : cycleDone curTime p = true) :
    runPolls true curTime st last (p :: polls)
      = ((pollCycle true curTime st p).1,
         (sortByDate (p.filter (inScope curTime))).getLast?.map SubmissionResult.id,
         true, 1) := by
  have hf := pollCycle_flag curTime st p
  rw [h] at hf
  simp [runPolls, hf, pollCycle_lastId]

theorem runPolls_cons_notdone (curTime : Int) (st : TrackState) (last : Option Nat)
    (p : List SubmissionResult) (polls : List (List SubmissionResult))
    (h : cycleDone curTime p = false) :
    runPolls true curTime st last (p :: polls)
      = ((runPolls true curTime (pollCycle true curTime st p).1
            (pollCycle true curTime st p).2.1 polls).1,
         (runPolls true curTime (pollCycle true curTime st p).1
            (pollCycle true curTime st p).2.1 polls).2.1,
         (runPolls true curTime (pollCycle true curTime st p).1
            (pollCycle true curTime st p).2.1 polls).2.2.1,
         (runPolls true curTime (pollCycle true curTime st p).1
            (pollCycle true curTime st p).2.1 polls).2.2.2 + 1) := by
  have hf := pollCycle_flag curTime st p
  rw [h] at hf
  simp [runPolls, hf]

theorem runPolls_terminates_at (curTime : Int) :
    ∀ (k : Nat) (polls : List (List SubmissionResult)) (st : TrackState)
      (last : Option Nat),
    k < polls.length →
    (∀ j, j < k → cycleDone curTime (polls.getD j []) = false) →
    cycleDone curTime (polls.getD k []) = true →
    ∃ stF, runPolls true curTime st last polls
      = (stF,
         (sortByDate ((polls.getD k []).filter (inScope curTime))).getLast?.map
           SubmissionResult.id,
         true, k + 1) := by
  intro k
  induction k with
  | zero =>
    intro polls st last hk hbefore hdone
    cases polls with
    | nil => simp at hk
    | cons p rest =>
      refine ⟨(pollCycle true curTime st p).1, ?_⟩
      simpa using runPolls_cons_done curTime st last p rest (by simpa using hdone)
  | succ n ih =>
    intro polls st last hk hbefore hdone
    cases polls with
    | nil => simp at hk
    | cons p rest =>
      have h0 : cycleDone curTime p = false := by
        have := hbefore 0 (Nat.succ_pos n)
        simpa using this
      rw [runPolls_cons_notdone curTime st last p rest h0]
      obtain ⟨stF, hF⟩ := ih rest (pollCycle true curTime st p).1
        (pollCycle true curTime st p).2.1
        (by simpa using hk)
        (fun j hj => by
          have := hbefore (j + 1) (Nat.succ_lt_succ hj)
          simpa using this)
        (by simpa using hdone)
      refine ⟨stF, ?_⟩
      rw [hF]
      simp

/-- C1: in a recent-only tracking session whose poll snapshots first satisfy
the all-in-scope-Done condition at cycle k (every earlier cycle has a
non-terminal in-scope submission), the polling loop stops after exactly that
cycle, and —  provided submissions persist across polls and identifiers are
monotone in submission timestamps — the returned value is the highest
submission identifier among the in-scope submissions seen in any cycle. -/
theorem c1_recent_only_returns_max (curTime : Int)
    (polls : List (List SubmissionResult)) (k : Nat) (st : TrackState)
    (last : Option Nat)
    (hk : k < polls.length)
    (hterm : cycleDone curTime (polls.getD k []) = true)
    (hbefore : ∀ j, j < k → cycleDone curTime (polls.getD j []) = false)
    (hne : (polls.getD k []).filter (inScope curTime) ≠ [])
    (hpersist : ∀ j, j < k → ∀ r ∈ (polls.getD j []).filter (inScope curTime),
      ∃ r', r' ∈ polls.getD k [] ∧ r'.id = r.id ∧ r'.date = r.date)
    (hmono : ∀ r ∈ polls.getD k [], ∀ r' ∈ polls.getD k [],
      r.date ≤ r'.date → r.id ≤ r'.id) :
    ∃ stF m, runPolls true curTime st last polls = (stF, some m, true, k + 1) ∧
      (∃ r ∈ (polls.getD k []).filter (inScope curTime), r.id = m) ∧
      ∀ j, j ≤ k → ∀ r ∈ (polls.getD j []).filter (inScope curTime), r.id ≤ m := by
  obtain ⟨mSub, hlastEq, hmem, hmax⟩ := sortByDate_getLast_max _ hne
  obtain ⟨stF, hrun⟩ := runPolls_terminates_at curTime k polls st last hk hbefore hterm
  have hmemFull : mSub ∈ polls.getD k [] := (List.mem_filter.mp hmem).1
  have hmdone : mSub.status.done = true := by
    unfold cycleDone at hterm
    rw [List.all_eq_true] at hterm
    exact hterm mSub hmem
  have hmscope : inScope curTime mSub = true := (List.mem_filter.mp hmem).2
  have hmrecent : curTime - mSub.date ≤ 10 := by
    simp only [inScope, hmdone, Bool.not_true, Bool.or_false,
      decide_eq_true_eq] at hmscope
    exact hmscope
  refine ⟨stF, mSub.id, ?_, ⟨mSub, hmem, rfl⟩, ?_⟩
  · rw [hrun, hlastEq]
    rfl
  · intro j hj r hr
    rcases Nat.lt_or_ge j k with hjk | hjk
    · obtain ⟨r', hr'mem, hid, hdate⟩ := hpersist j hjk r hr
      by_cases hsc : inScope curTime r' = true
      · have hr'filter : r' ∈ (polls.getD k []).filter (inScope curTime) :=
          List.mem_filter.mpr ⟨hr'mem, hsc⟩
        have hd := hmax r' hr'filter
        have hle := hmono r' hr'mem mSub hmemFull hd
        omega
      · have hold : ¬ curTime - r'.date ≤ 10 := by
          simp only [inScope, Bool.or_eq_true, decide_eq_true_eq, Bool.not_eq_true',
            not_or, Bool.not_eq_false] at hsc
          push_neg at hsc
          omega
        have hdm : r'.date ≤ mSub.date := by omega
        have hle := hmono r' hr'mem mSub hmemFull hdm
        omega
    · have hjeq : j = k := le_antisymm hj hjk
      subst hjeq
      have hd := hmax r hr
      exact hmono r (List.mem_filter.mp hr).1 mSub hmemFull hd

theorem c1_recent_only_returns_max_witness :
    ∃ stF m,
      runPolls true 100 emptyTrack none [sampleWaitingPoll, sampleDonePoll]
        = (stF, some m, true, 1 + 1) ∧
      (∃ r ∈ ([sampleWaitingPoll, sampleDonePoll].getD 1 []).filter (inScope 100),
        r.id = m) ∧
      ∀ j, j ≤ 1 →
        ∀ r ∈ ([sampleWaitingPoll, sampleDonePoll].getD j []).filter (inScope 100),
          r.id ≤ m :=
  c1_recent_only_returns_max 100 [sampleWaitingPoll, sampleDonePoll] 1 emptyTrack none
    (by decide) (by decide)
    (by intro j hj; interval_cases j; decide)
    (by decide)
    (by intro j hj; interval_cases j; decide)
    (by decide)

/-- C5: evaluation of the update task at a failing input.  When the first
poll's `submission_status` call fails, the task returns the error through
`?` with the shared completion flag still false, and the join barrier
therefore never completes: the tracking call does not return, and the error
never reaches the caller.  On a normal recent-only run the flag is set.
This contradicts the claim that the flag is always set before the call
returns and that polling errors propagate. -/
theorem c5_error_path_flag_unset :
    updateTask Unit true 100 emptyTrack none [.error ()]
      = .finished false (.error ()) ∧
    watchReturn Unit (updateTask Unit true 100 emptyTrack none [.error ()]) = none ∧
    updateTask Unit true 100 emptyTrack none [.ok sampleDonePoll]
      = .finished true (.ok (some 2)) ∧
    watchReturn Unit (updateTask Unit true 100 emptyTrack none [.ok sampleDonePoll])
      = some (.ok (some 2)) :=
  ⟨rfl, rfl, by decide, by decide⟩

/-- C3 counterexample: a 404 response carrying `Set-Cookie: sess=1` produces
the `StatusError` failure with the cookie jar still empty — the response's
cookies were not absorbed before failing. -/
theorem c3_counterexample :
    httpReq notFoundCookieServer "GET".data ⟨"atcoder.jp".data, "/x".data⟩
      = ⟨[], [("GET".data, ⟨"atcoder.jp".data, "/x".data⟩)],
         .error (.statusError "https://atcoder.jp/x".data 404 "Not Found".data)⟩ := by
  decide

theorem httpReqGo_jar_extends (server : List Char → UrlT → HttpResponse) :
    ∀ (rest : Nat) (method : List Char) (url : UrlT) (jar : Jar)
      (log : List (List Char × UrlT)),
    ∃ ext, (httpReqGo server method url jar log rest).jar = jar ++ ext := by
  intro rest
  induction rest with
  | zero =>
    intro method url jar log
    unfold httpReqGo
    split
    next heq =>
      dsimp only
      split
      · exact ⟨[], by simp⟩
      · split
        · exact ⟨[], by simp⟩
        · split
          · exact ⟨(server method url).setCookies.map fun c => (c, url), by simp [absorb]⟩
          · exact ⟨(server method url).setCookies.map fun c => (c, url), by simp [absorb]⟩
    next fuel' heq => exact absurd heq (by simp)
  | succ n ih =>
    intro method url jar log
    unfold httpReqGo
    split
    next heq => exact absurd heq (by simp)
    next fuel' heq =>
      injection heq with h
      subst h
      dsimp only
      split
      · exact ⟨[], by simp⟩
      · split
        · exact ⟨[], by simp⟩
        · split
          · exact ⟨(server method url).setCookies.map fun c => (c, url), by simp [absorb]⟩
          · split
            · exact ⟨(server method url).setCookies.map fun c => (c, url), by simp [absorb]⟩
            next loc hloc =>
              split
              · obtain ⟨ext, hext⟩ := ih "GET".data (urlJoin url loc)
                  (absorb jar (server method url).setCookies url) (log ++ [(method, url)])
                refine ⟨((server method url).setCookies.map fun c => (c, url)) ++ ext, ?_⟩
                rw [hext]
                simp [absorb]
              · exact ⟨(server method url).setCookies.map fun c => (c, url), by simp [absorb]⟩

/-- C3 (amended): the transport absorbs a response's `Set-Cookie` headers
into the cookie store before deciding between returning the body,
redirecting, or failing on the redirect policy — but only for responses that
pass the transport-error and `res.error()` checks.  A response with a 4xx/5xx
status yields the `StatusError` failure with the store untouched, because
`res.error()` is checked before `store_response_cookies`. -/
theorem c3_amended_absorb_order (server : List Char → UrlT → HttpResponse)
    (method : List Char) (url : UrlT) (jar : Jar) (log : List (List Char × UrlT))
    (rest : Nat) (hsynth : (server method url).syntheticError = none) :
    (resIsError (server method url) = true →
      httpReqGo server method url jar log rest
        = ⟨jar, log ++ [(method, url)],
           .error (.statusError (server method url).resUrl (server method url).status
             (server method url).statusText)⟩) ∧
    (resIsError (server method url) = false →
      ∃ ext, (httpReqGo server method url jar log rest).jar
        = absorb jar (server method url).setCookies url ++ ext) := by
  constructor
  · intro herr
    cases rest with
    | zero =>
      unfold httpReqGo
      split
      next heq =>
        dsimp only
        rw [hsynth]
        simp [herr]
      next fuel' heq => exact absurd heq (by simp)
    | succ n =>
      unfold httpReqGo
      split
      next heq => exact absurd heq (by simp)
      next fuel' heq =>
        injection heq with h
        subst h
        dsimp only
        rw [hsynth]
        simp [herr]
  · intro herr
    cases rest with
    | zero =>
      unfold httpReqGo
      split
      next heq =>
        dsimp only
        rw [hsynth]
        simp only [herr, Bool.false_eq_true, if_false]
        split
        · exact ⟨[], by simp⟩
        · exact ⟨[], by simp⟩
      next fuel' heq => exact absurd heq (by simp)
    | succ n =>
      unfold httpReqGo
      split
      next heq => exact absurd heq (by simp)
      next fuel' heq =>
        injection heq with h
        subst h
        dsimp only
        rw [hsynth]
        simp only [herr, Bool.false_eq_true, if_false]
        split
        · exact ⟨[], by simp⟩
        · split
          · exact ⟨[], by simp⟩
          next loc hloc =>
            split
            · obtain ⟨ext, hext⟩ := httpReqGo_jar_extends server n "GET".data
                (urlJoin url loc) (absorb jar (server method url).setCookies url)
                (log ++ [(method, url)])
              exact ⟨ext, hext⟩
            · exact ⟨[], by simp⟩

theorem c3_amended_absorb_order_witness :
    ∃ ext,
      (httpReqGo okCookieServer "GET".data ⟨"atcoder.jp".data, "/ok".data⟩ [] [] 5).jar
        = absorb [] (okCookieServer "GET".data ⟨"atcoder.jp".data, "/ok".data⟩).setCookies
            ⟨"atcoder.jp".data, "/ok".data⟩ ++ ext :=
  (c3_amended_absorb_order okCookieServer "GET".data ⟨"atcoder.jp".data, "/ok".data⟩
    [] [] 5 rfl).2 rfl

/-- C4 counterexample: on a chain of five same-host redirects followed by a
sixth 3xx response whose `Location` is cross-host, the transport fails with
the budget-exhaustion error, not the cross-host error — the budget check
precedes the `Location`/host inspection — so the claim's "regardless of how
many redirect hops preceded it, also when the budget is already exhausted"
is false. -/
theorem c4_counterexample :
    (httpReq chainCrossAtEndServer "GET".data ⟨"atcoder.jp".data, "/r0".data⟩).result
      = .error (.tooManyRedirects "u5".data) ∧
    (httpReq chainCrossAtEndServer "GET".data ⟨"atcoder.jp".data, "/r0".data⟩).log.length
      = 6 :=
  ⟨by decide, by decide⟩

/-- C4 (amended): whenever a 3xx response with a `Location` resolving to a
foreign host is received at a hop where the redirect budget is not yet
exhausted, the transport fails with the cross-host error, regardless of how
many hops preceded it; at a budget-exhausted hop the too-many-redirects
error wins because it is checked first. -/
theorem c4_amended_crosshost_within_budget (server : List Char → UrlT → HttpResponse)
    (method : List Char) (url : UrlT) (jar : Jar) (log : List (List Char × UrlT))
    (rest' : Nat) (loc : LocationT)
    (hsynth : (server method url).syntheticError = none)
    (herr : resIsError (server method url) = false)
    (hredir : resIsRedirect (server method url) = true)
    (hloc : (server method url).location = some loc)
    (hhost : (urlJoin url loc).host ≠ "atcoder.jp".data) :
    httpReqGo server method url jar log (rest' + 1)
      = ⟨absorb jar (server method url).setCookies url, log ++ [(method, url)],
         .error .crossHost⟩ := by
  unfold httpReqGo
  split
  next heq => exact absurd heq (by simp)
  next fuel' heq =>
    injection heq with h
    subst h
    dsimp only
    rw [hsynth]
    simp only [herr, Bool.false_eq_true, if_false, hredir, Bool.not_true]
    rw [hloc]
    simp [hhost]

theorem c4_amended_crosshost_within_budget_witness :
    httpReqGo crossHostServer "GET".data ⟨"atcoder.jp".data, "/go".data⟩ [] [] (4 + 1)
      = ⟨absorb [] (crossHostServer "GET".data ⟨"atcoder.jp".data, "/go".data⟩).setCookies
           ⟨"atcoder.jp".data, "/go".data⟩,
         [("GET".data, ⟨"atcoder.jp".data, "/go".data⟩)], .error .crossHost⟩ :=
  c4_amended_crosshost_within_budget crossHostServer "GET".data
    ⟨"atcoder.jp".data, "/go".data⟩ [] [] 4
    (.absolute "evil.example".data "/".data) rfl rfl rfl rfl (by decide)

/-- C6: boundary behaviour of the redirect budget, and the divergence of the
two transport implementations.  `AtCoder::http_req` follows a chain of five
same-host redirects to the final 200 body, fails a six-redirect chain with
the budget-exhaustion error after exactly six requests (no seventh hop is
issued), and follows a one-redirect chain to its body; `Client::req`
(src/http.rs), whose loop shadows the joined URL instead of assigning it,
re-requests the original URL on every hop and therefore fails even the
one-redirect chain with the budget-exhaustion error. -/
theorem c6_redirect_budget_and_shadowed_client :
    (httpReq chain5Server "GET".data ⟨"atcoder.jp".data, "/r0".data⟩).result
      = .ok "final".data ∧
    (httpReq chain6Server "GET".data ⟨"atcoder.jp".data, "/r0".data⟩).result
      = .error (.tooManyRedirects "u5".data) ∧
    (httpReq chain6Server "GET".data ⟨"atcoder.jp".data, "/r0".data⟩).log.length = 6 ∧
    (httpReq oneHopServer "GET".data ⟨"atcoder.jp".data, "/a".data⟩).result
      = .ok "done".data ∧
    (clientReq oneHopServer "GET".data ⟨"atcoder.jp".data, "/a".data⟩).result
      = .error (.tooManyRedirects "ua".data) :=
  ⟨by decide, by decide, by decide, by decide, by decide⟩
